import Mathlib

/-!
Verification development for the gemini-p5-editor repository.

The repository is a browser-based p5.js editor: a CodeMirror pane, a sandboxed
preview iframe, and an AI generation pipeline (a proxy route variant and a
direct-client variant of `Editor.js`).  This file gives a shallow embedding of
the string-processing core (`normalizeCode`, the iframe template, the fence
extraction of the generation proxy) and of the stateful preview / generation
logic, and proves the specification's claims about them.

Strings are modelled as `List Char` (with `String` wrappers), and the two
JavaScript regex replacements in `normalizeCode` are translated into explicit
left-to-right scanners that implement the exact regex semantics.
-/

/-- The JavaScript `\s` character class (also the set removed by
`String.prototype.trim`): tab, LF, VT, FF, CR, space, NBSP, and the Unicode
space separators, line/paragraph separators and BOM. -/
def isJsWs (c : Char) : Bool :=
  c = ' ' || c = '\t' || c = '\n' || c = '\u000B' || c = '\u000C' || c = '\r' ||
  c = '\u00A0' || c = '\u1680' ||
  ('\u2000' ≤ c && c ≤ '\u200A') ||
  c = '\u2028' || c = '\u2029' || c = '\u202F' || c = '\u205F' ||
  c = '\u3000' || c = '\uFEFF'

/-- JavaScript line terminators: the characters that regex `.` does not match
(so a `//.*` match stops before them) and the positions after which a
multiline `^` anchor matches. -/
def isLineTerm (c : Char) : Bool :=
  c = '\n' || c = '\r' || c = '\u2028' || c = '\u2029'

/-- `pairFree p l` holds when no two adjacent characters of `l` satisfy `p`. -/
def pairFree (p : Char → Char → Bool) : List Char → Bool
  | a :: b :: rest => !p a b && pairFree p (b :: rest)
  | _ => true

/-- Adjacent pair forming a `//` line-comment opener. -/
def ssPair (a b : Char) : Bool := a = '/' && b = '/'

/-- Adjacent pair forming a `*/` block-comment closer. -/
def closePair (a b : Char) : Bool := a = '*' && b = '/'

/-- Adjacent pair of two whitespace characters. -/
def wsPair (a b : Char) : Bool := isJsWs a && isJsWs b

/-- Scan for the first `*/` and return the remainder after it.  This is the
lazy `[\s\S]*?\*\/` part of the block-comment regex in `normalizeCode`:
`none` exactly when the list contains no `*/` substring. -/
def findClose : List Char → Option (List Char)
  | [] => none
  | c :: rest =>
    if c = '*' then
      match rest with
      | [] => none
      | d :: rest2 => if d = '/' then some rest2 else findClose rest
    else findClose rest

/-- No block-comment text: the list contains no `/*` opener that is followed
somewhere later by a `*/` closer, i.e. no substring matched by
`/\/\*[\s\S]*?\*\//`. -/
def BlockFreeP (l : List Char) : Prop :=
  ∀ u v : List Char, l = u ++ '/' :: '*' :: v → pairFree closePair v = true

/-- Drop characters up to (but not including) the next line terminator: the
greedy `.*` of the `//.*` line-comment regex (`.` does not match a line
terminator). -/
def dropLine : List Char → List Char
  | [] => []
  | c :: rest => if isLineTerm c then c :: rest else dropLine rest

/-- Fuel-driven scanner implementing the global replacement
`code.replace(/\/\*[\s\S]*?\*\/|\/\/.*/g, '')` from `normalizeCode`
(`Editor.js` line 25).  At each position the regex engine first tries the
block-comment alternative (which matches only if a closing `*/` exists
somewhere later), then the line-comment alternative, and otherwise keeps the
character and advances.  The fuel is an upper bound on the input length, so
the `0` case is never reached from `removeComments`. -/
def rcFuel : Nat → List Char → List Char
  | 0, l => l
  | _ + 1, [] => []
  | fuel + 1, c :: rest =>
    if c = '/' then
      match rest with
      | [] => [c]
      | d :: rest2 =>
        if d = '*' then
          match findClose rest2 with
          | some rest3 => rcFuel fuel rest3
          | none => c :: rcFuel fuel (d :: rest2)
        else if d = '/' then rcFuel fuel (dropLine rest2)
        else c :: rcFuel fuel rest
    else c :: rcFuel fuel rest

/-- `code.replace(/\/\*[\s\S]*?\*\/|\/\/.*/g, '')`. -/
def removeComments (l : List Char) : List Char := rcFuel l.length l

/-- The global replacement `.replace(/\s+/g, ' ')` from `normalizeCode`
(`Editor.js` line 27): each maximal run of whitespace becomes a single
space. -/
def collapseWs : List Char → List Char
  | [] => []
  | c :: rest =>
    if isJsWs c then
      match rest with
      | [] => [' ']
      | d :: rest2 =>
        if isJsWs d then collapseWs (d :: rest2)
        else ' ' :: d :: collapseWs rest2
    else c :: collapseWs rest

/-- `String.prototype.trim`: remove leading and trailing whitespace. -/
def jsTrim (l : List Char) : List Char :=
  ((l.dropWhile isJsWs).reverse.dropWhile isJsWs).reverse

/-- `normalizeCode` (`Editor.js` lines 23-28): strip comments, collapse
whitespace runs to single spaces, trim. -/
def normalizeCode (s : String) : String :=
  String.mk (jsTrim (collapseWs (removeComments s.data)))


/-- The initial sketch shown on load (`INITIAL_CODE`, `Editor.js` lines
14-21, identical in both variants). -/
def INITIAL_CODE : String :=
  "function setup() \x7b\n  createCanvas(400, 400);\n\x7d\n\nfunction draw() \x7b\n  background(220);\n  ellipse(mouseX, mouseY, 50, 50);\n\x7d"

/-- The part of the `getIframeContent` template literal before the
`$\x7buserCode\x7d` substitution (`Editor.js` lines 30-84; the template is
identical in the direct-client variant). -/
def iframeHeader : String :=
  "\n<!DOCTYPE html>\n<html>\n  <head>\n    <script src=\"https://cdnjs.cloudflare.com/ajax/libs/p5.js/1.4.0/p5.js\"></script>\n    <style>\n      body \x7b \n        margin: 0; \n        padding: 0;\n        display: flex;\n        justify-content: center;\n        align-items: center;\n        min-height: 100vh;\n      \x7d\n      main \x7b\n        display: block;\n        margin: 0 auto;\n      \x7d\n      .error \x7b\n        color: red;\n        font-family: monospace;\n        white-space: pre-wrap;\n        padding: 10px;\n      \x7d\n    </style>\n  </head>\n  <body>\n    <script>\n      // Error handling\n      window.onerror = function(msg, url, lineNo, columnNo, error) \x7b\n        document.body.innerHTML = \x27<div class=\"error\">Error: \x27 + msg + \x27</div>\x27;\n        return false;\n      \x7d;\n\n      window.console.error = function(...args) \x7b\n        document.body.innerHTML = \x27<div class=\"error\">Error: \x27 + args.join(\x27 \x27) + \x27</div>\x27;\n      \x7d;\n\n      // Update message handler for screenshot\n      window.addEventListener(\x27message\x27, function(event) \x7b\n        if (event.data.type === \x27takeScreenshot\x27) \x7b\n          const canvas = document.querySelector(\x27canvas\x27);\n          if (canvas) \x7b\n            const dataUrl = canvas.toDataURL(\x27image/png\x27);\n            window.parent.postMessage(\x7b type: \x27screenshot\x27, data: dataUrl \x7d, \x27*\x27);\n          \x7d\n        \x7d\n      \x7d);\n\n      // User code\n      "

/-- The part of the `getIframeContent` template literal after the user code
substitution. -/
def iframeFooter : String :=
  "\n    </script>\n  </body>\n</html>\n"

/-- `getIframeContent`: the complete HTML document assigned to the preview
iframe, with the user sketch code spliced into the trailing script tag. -/
def getIframeContent (userCode : String) : String :=
  iframeHeader ++ userCode ++ iframeFooter

/-- Client-side state of the proxy-variant editor relevant to the preview:
the sketch source, the normalized change-detection key, the document last
assigned to the iframe, and a counter of `srcdoc` assignments. -/
structure EditorState where
  code : String
  normalizedCode : String
  srcdoc : String
  assignCount : Nat

/-- State after mount and the initial-load effect (`Editor.js` lines 87-88
and 190-194): the iframe has been assigned the document for
`INITIAL_CODE`. -/
def initEditor : EditorState :=
  { code := INITIAL_CODE
    normalizedCode := normalizeCode INITIAL_CODE
    srcdoc := getIframeContent INITIAL_CODE
    assignCount := 1 }

/-- `updatePreview` (proxy variant, `Editor.js` lines 125-134): recompute the
normalized source; only when it differs from the stored one, store it and
reassign the iframe document. -/
def updatePreview (s : EditorState) : EditorState :=
  let newNormalizedCode := normalizeCode s.code
  if newNormalizedCode ≠ s.normalizedCode then
    { s with
        normalizedCode := newNormalizedCode
        srcdoc := getIframeContent s.code
        assignCount := s.assignCount + 1 }
  else s

/-- An edit of the sketch source followed by the preview update triggered by
the `onChange` handler and the `[code]` effect (`Editor.js` lines 176-187
and 227-230). -/
def applyEdit (s : EditorState) (value : String) : EditorState :=
  updatePreview { s with code := value }

/-- Editor states reachable from the initial state by edits. -/
inductive EditorReachable : EditorState → Prop
  | init : EditorReachable initEditor
  | edit {s : EditorState} (h : EditorReachable s) (v : String) :
      EditorReachable (applyEdit s v)

/-- Preview state of the direct-client variant, which keeps no normalized
change-detection key (`Editor.js` lines 405-448). -/
structure DCEditorState where
  code : String
  srcdoc : String
  assignCount : Nat

/-- Direct-client state after mount and the initial-load effect. -/
def initDCEditor : DCEditorState :=
  { code := INITIAL_CODE
    srcdoc := getIframeContent INITIAL_CODE
    assignCount := 1 }

/-- `updatePreview` (direct-client variant, `Editor.js` lines 443-448):
unconditionally reassign the iframe document. -/
def updatePreviewDC (s : DCEditorState) : DCEditorState :=
  { s with
      srcdoc := getIframeContent s.code
      assignCount := s.assignCount + 1 }

/-- An edit in the direct-client variant: `onChange` stores the code and the
`[code]` effect calls `updatePreview` (`Editor.js` lines 503-513 and 546). -/
def applyEditDC (s : DCEditorState) (value : String) : DCEditorState :=
  updatePreviewDC { s with code := value }

/-- `text.includes('\x60\x60\x60')`: whether a triple-backtick fence marker
occurs in the text. -/
def hasFence : List Char → Bool
  | '\x60' :: '\x60' :: '\x60' :: _ => true
  | _ :: rest => hasFence rest
  | [] => false

/-- `text.split('\x60\x60\x60')`: split on every occurrence of the
three-character fence marker, leftmost first, non-overlapping. -/
def splitFence : List Char → List (List Char)
  | '\x60' :: '\x60' :: '\x60' :: rest => [] :: splitFence rest
  | c :: rest =>
    match splitFence rest with
    | [] => [[c]]
    | h :: t => (c :: h) :: t
  | [] => [[]]

/-- `.filter((block, index) => index % 2 === 1)`: the segments at odd
indices, i.e. the fenced bodies. -/
def oddParts : List (List Char) → List (List Char)
  | _ :: b :: rest => b :: oddParts rest
  | _ => []

/-- `.join('\n')`. -/
def joinNl : List (List Char) → List Char
  | [] => []
  | [x] => x
  | x :: y :: rest => x ++ '\n' :: joinNl (y :: rest)

/-- Does the list start with the literal `javascript` followed by a newline
(the body of the `/^javascript\n/` pattern)?  Returns the remainder after
the match. -/
def jsTagHere : List Char → Option (List Char)
  | 'j' :: 'a' :: 'v' :: 'a' :: 's' :: 'c' :: 'r' :: 'i' :: 'p' :: 't' :: '\n' :: rest =>
    some rest
  | _ => none

/-- Scan for the first line start (a position following a line terminator)
where the tag pattern matches, and remove that one occurrence. -/
def stripScan : List Char → List Char
  | [] => []
  | c :: rest =>
    if isLineTerm c then
      match jsTagHere rest with
      | some rest2 => c :: rest2
      | none => c :: stripScan rest
    else c :: stripScan rest

/-- `.replace(/^javascript\n/m, '')`: with the multiline flag, `^` matches at
the start of the string and after every line terminator; without the global
flag, only the first occurrence is removed. -/
def stripJsTag (l : List Char) : List Char :=
  match jsTagHere l with
  | some rest => rest
  | none => stripScan l

/-- The fenced-path post-processing of the generation proxy
(`src/app/api/generate/route.js` lines 38-45, duplicated in the
direct-client `generateCode`, `Editor.js` lines 477-484): split on the
fence markers, keep the odd-indexed segments, join with a newline, remove
the first line-anchored `javascript` tag, trim. -/
def extractFenced (l : List Char) : List Char :=
  jsTrim (stripJsTag (joinNl (oddParts (splitFence l))))

/-- The full response post-processing: the fenced path runs only when a
fence marker occurs; otherwise the response text is passed through
unchanged. -/
def extractCode (s : String) : String :=
  if hasFence s.data then String.mk (extractFenced s.data) else s

/-- Modelled from the claim wording of the spec (section 4.4): remove a
`javascript` language-tag line only when it is leading, i.e. anchored at the
very start of the joined bodies.  Used to compare the spec's description
with the code's `extractFenced`. -/
def stripLeadingJsTag (l : List Char) : List Char :=
  match jsTagHere l with
  | some rest => rest
  | none => l

/-- The claim's pipeline with leading-only tag removal, for comparison with
`extractFenced`. -/
def leadingTagOnlyExtract (l : List Char) : List Char :=
  jsTrim (stripLeadingJsTag (joinNl (oddParts (splitFence l))))

/-- Result of the `POST /api/generate` handler: a JSON body with its HTTP
status. -/
inductive ProxyResponse where
  | codeBody (code : String)
  | errorBody (message : String)

/-- The HTTP status attached to each response shape: `Response.json({code})`
defaults to 200, `Response.json({error}, {status: 500})` is the failure
status. -/
def proxyStatus : ProxyResponse → Nat
  | .codeBody _ => 200
  | .errorBody _ => 500

/-- The `POST` handler of the generation proxy
(`src/app/api/generate/route.js`): everything inside the `try` block up to
obtaining the response text (request parsing and the vendor chat call) is
modelled by an `Except` value; a throw is caught and returned as an error
payload with status 500, and otherwise the response text is post-processed
and returned as a code payload. -/
def post (attempt : Except String String) : ProxyResponse :=
  match attempt with
  | .ok text => .codeBody (extractCode text)
  | .error e => .errorBody e

/-- Client state for the generation pipeline (proxy variant `generateCode`,
`Editor.js` lines 137-174): the sketch source, the `isGenerating` flag, the
number of outstanding network requests, the total number of requests ever
issued, and the console error log. -/
structure GenState where
  code : String
  isGenerating : Bool
  inFlight : Nat
  requestCount : Nat
  errorLog : List String

/-- Generation state on page load. -/
def initGenState : GenState :=
  { code := INITIAL_CODE
    isGenerating := false
    inFlight := 0
    requestCount := 0
    errorLog := [] }

/-- Invoking `generateCode`: the guard `if (isGenerating) return;`
(`Editor.js` line 138) drops the call without any effect; otherwise the flag
is set and one `fetch` to `/api/generate` is issued. -/
def invokeGenerate (s : GenState) : GenState :=
  if s.isGenerating then s
  else
    { s with
        isGenerating := true
        inFlight := s.inFlight + 1
        requestCount := s.requestCount + 1 }

/-- How a single generation attempt can end: a success payload, an error
payload from the proxy (rethrown by `if (data.error) throw`), or a failure
of the `fetch` itself. -/
inductive GenOutcome where
  | ok (code : String)
  | errPayload (e : String)
  | netFail (e : String)

/-- Whether the outcome takes the `catch` path. -/
def isFailureOutcome : GenOutcome → Bool
  | .ok _ => false
  | _ => true

/-- The console message logged by the `catch` block
(`console.error('Error generating code:', error)`). -/
def outcomeMessage : GenOutcome → String
  | .ok _ => ""
  | .errPayload e => "Error generating code: " ++ e
  | .netFail e => "Error generating code: " ++ e

/-- The continuation after the awaited request settles: on success the
sketch source is replaced with the returned code; on failure the `catch`
block logs the error and the source is untouched; the `finally` block clears
the flag in either case. -/
def resolveGenerate (s : GenState) (o : GenOutcome) : GenState :=
  match o with
  | .ok c =>
      { s with
          code := c
          inFlight := s.inFlight - 1
          isGenerating := false }
  | _ =>
      { s with
          errorLog := s.errorLog ++ [outcomeMessage o]
          inFlight := s.inFlight - 1
          isGenerating := false }

/-- A complete single `generateCode` call: the guard, then the request and
its resolution. -/
def runGenerate (s : GenState) (o : GenOutcome) : GenState :=
  if s.isGenerating then s else resolveGenerate (invokeGenerate s) o

/-- One scheduler event: a user or auto-generate invocation of
`generateCode`, or the settling of an outstanding request (a no-op when
nothing is in flight, since only issued requests can settle). -/
inductive GenEvent where
  | invoke
  | settle (o : GenOutcome)

/-- Event-step semantics of the generation client. -/
def genStep (s : GenState) : GenEvent → GenState
  | .invoke => invokeGenerate s
  | .settle o => if s.inFlight = 0 then s else resolveGenerate s o

/-- Generation states reachable from page load. -/
inductive GenReachable : GenState → Prop
  | init : GenReachable initGenState
  | step {s : GenState} (h : GenReachable s) (e : GenEvent) :
      GenReachable (genStep s e)


/-- Invariant of the generation event system: the `isGenerating` flag counts
the outstanding requests exactly. -/
theorem genReachable_inFlight {s : GenState} (h : GenReachable s) :
    s.inFlight = if s.isGenerating then 1 else 0 := by
  induction h with
  | init => rfl
  | step h e ih =>
    cases e with
    | invoke =>
      simp only [genStep, invokeGenerate]
      split
      · next hg => simp [hg] at ih ⊢; exact ih
      · next hg =>
        simp only [Bool.not_eq_true] at hg
        simp [hg] at ih
        simp [ih]
    | settle o =>
      simp only [genStep]
      split
      · exact ih
      · next hn =>
        cases o <;>
          (simp only [resolveGenerate]
           split at ih <;> simp_all)

/-- C4: while a generation is in flight (`isGenerating` set), any further
`generateCode` invocation returns immediately without issuing a request or
changing state; two invocations before the first resolves issue exactly one
request; and no reachable state has two generations in flight. -/
theorem generate_single_flight :
    (∀ s : GenState, s.isGenerating = true → invokeGenerate s = s) ∧
    (∀ s : GenState, s.isGenerating = false →
      (invokeGenerate (invokeGenerate s)).requestCount = s.requestCount + 1) ∧
    (∀ s : GenState, GenReachable s → s.inFlight ≤ 1) := by
  refine ⟨?_, ?_, ?_⟩
  · intro s h
    simp [invokeGenerate, h]
  · intro s h
    simp [invokeGenerate, h]
  · intro s h
    rw [genReachable_inFlight h]
    split <;> omega

theorem generate_single_flight_witness :
    ((invokeGenerate initGenState).isGenerating = true ∧
      invokeGenerate (invokeGenerate initGenState) = invokeGenerate initGenState) ∧
    (initGenState.isGenerating = false ∧
      (invokeGenerate (invokeGenerate initGenState)).requestCount =
        initGenState.requestCount + 1) ∧
    initGenState.inFlight ≤ 1 :=
  ⟨⟨rfl, generate_single_flight.1 (invokeGenerate initGenState) rfl⟩,
   ⟨rfl, generate_single_flight.2.1 initGenState rfl⟩,
   generate_single_flight.2.2 initGenState GenReachable.init⟩

/-- C6: if a generation call fails (network error or `{error}` payload), the
sketch source is unchanged and the error is logged; in every case the
`isGenerating` flag is cleared by the `finally` step. -/
theorem generate_failure_terminal (s : GenState) (o : GenOutcome)
    (h : s.isGenerating = false) :
    (runGenerate s o).isGenerating = false ∧
    (isFailureOutcome o = true →
      (runGenerate s o).code = s.code ∧
      (runGenerate s o).errorLog = s.errorLog ++ [outcomeMessage o]) := by
  cases o <;>
    simp [runGenerate, h, invokeGenerate, resolveGenerate, isFailureOutcome,
      outcomeMessage]

theorem generate_failure_terminal_witness :
    initGenState.isGenerating = false ∧
    ((runGenerate initGenState (GenOutcome.netFail "x")).isGenerating = false ∧
      (isFailureOutcome (GenOutcome.netFail "x") = true →
        (runGenerate initGenState (GenOutcome.netFail "x")).code = initGenState.code ∧
        (runGenerate initGenState (GenOutcome.netFail "x")).errorLog =
          initGenState.errorLog ++ [outcomeMessage (GenOutcome.netFail "x")])) :=
  ⟨rfl, generate_failure_terminal initGenState (GenOutcome.netFail "x") rfl⟩

/-- C5: the generation proxy never reports a parse failure for the response
text: every `ok` response, including one with an odd number of fence
markers, yields a success `{code}` payload with status 200, and an `{error}`
payload with failure status 500 arises exactly when the vendor call
throws. -/
theorem proxy_never_parse_failure :
    (∀ text : String,
      post (Except.ok text) = ProxyResponse.codeBody (extractCode text) ∧
      proxyStatus (post (Except.ok text)) = 200) ∧
    (∀ e : String,
      post (Except.error e) = ProxyResponse.errorBody e ∧
      proxyStatus (post (Except.error e)) = 500) ∧
    hasFence ("\x60\x60\x60incomplete").data = true ∧
    post (Except.ok "\x60\x60\x60incomplete") = ProxyResponse.codeBody "incomplete" := by
  refine ⟨fun t => ⟨rfl, rfl⟩, fun e => ⟨rfl, rfl⟩, by decide, ?_⟩
  have h : extractCode "\x60\x60\x60incomplete" = "incomplete" := by decide
  simp [post, h]

/-- C3 counterexample: a fence-free response with surrounding whitespace is
returned verbatim by the extraction, not trimmed as the claim states. -/
theorem nofence_not_trimmed :
    hasFence (" foo() ").data = false ∧
    extractCode " foo() " = " foo() " ∧
    String.mk (jsTrim (" foo() ").data) = "foo()" ∧
    extractCode " foo() " ≠ String.mk (jsTrim (" foo() ").data) :=
  ⟨by decide, by decide, by decide, by decide⟩

/-- C3 amended: a response with no fence marker is passed through unchanged
(the `.trim()` call sits inside the fenced branch only). -/
theorem nofence_verbatim (s : String) (h : hasFence s.data = false) :
    extractCode s = s := by
  simp [extractCode, h]

theorem nofence_verbatim_witness :
    hasFence (" foo() ").data = false ∧ extractCode " foo() " = " foo() " :=
  ⟨by decide, nofence_verbatim " foo() " (by decide)⟩

/-- C2 counterexample: the language-tag removal is line-anchored (multiline
flag), not anchored to the start of the joined bodies, so the code's
extraction differs from the claim's leading-tag-only pipeline on a fenced
body with an interior `javascript` line. -/
theorem fence_tag_strip_not_leading_only :
    extractCode "\x60\x60\x60\na()\njavascript\nb()\n\x60\x60\x60" = "a()\nb()" ∧
    String.mk (leadingTagOnlyExtract
        ("\x60\x60\x60\na()\njavascript\nb()\n\x60\x60\x60").data) =
      "a()\njavascript\nb()" ∧
    extractCode "\x60\x60\x60\na()\njavascript\nb()\n\x60\x60\x60" ≠
      String.mk (leadingTagOnlyExtract
        ("\x60\x60\x60\na()\njavascript\nb()\n\x60\x60\x60").data) :=
  ⟨by decide, by decide, by decide⟩

/-- C2 amended: for every response containing a fence marker, the extracted
code is obtained by splitting on the markers, keeping the odd-indexed
segments, joining with a newline, removing the first line-anchored
`javascript` tag line (not only a leading one), and trimming; the concrete
example extracts `foo()`. -/
theorem fence_extraction_pipeline :
    (∀ s : String, hasFence s.data = true →
      extractCode s =
        String.mk (jsTrim (stripJsTag (joinNl (oddParts (splitFence s.data)))))) ∧
    extractCode "\x60\x60\x60javascript\nfoo()\n\x60\x60\x60" = "foo()" := by
  constructor
  · intro s h
    simp [extractCode, h, extractFenced]
  · decide

theorem fence_extraction_pipeline_witness :
    hasFence ("\x60\x60\x60javascript\nfoo()\n\x60\x60\x60").data = true ∧
    extractCode "\x60\x60\x60javascript\nfoo()\n\x60\x60\x60" =
      String.mk (jsTrim (stripJsTag (joinNl (oddParts
        (splitFence ("\x60\x60\x60javascript\nfoo()\n\x60\x60\x60").data))))) :=
  ⟨by decide,
   fence_extraction_pipeline.1 "\x60\x60\x60javascript\nfoo()\n\x60\x60\x60" (by decide)⟩

/-- C9: the `^javascript\n` multiline replacement removes the first
occurrence of a `javascript` line at the start of any line of the joined
fenced bodies: on a response with no leading tag but an interior
`javascript` line, the extraction deletes that interior line of code. -/
theorem multiline_tag_strip_deletes_interior_line :
    hasFence ("\x60\x60\x60\nfoo()\njavascript\nbar()\n\x60\x60\x60").data = true ∧
    extractCode "\x60\x60\x60\nfoo()\njavascript\nbar()\n\x60\x60\x60" = "foo()\nbar()" :=
  ⟨by decide, by decide⟩

/-- A no-op edit (normalized form unchanged) leaves everything but the
stored source untouched: `updatePreview` takes its `else` branch. -/
theorem applyEdit_noop {s : EditorState} {v : String}
    (h : normalizeCode v = s.normalizedCode) :
    applyEdit s v = { s with code := v } := by
  simp [applyEdit, updatePreview, h]

/-- A real edit (normalized form changed) stores the new key and reassigns
the iframe document: `updatePreview` takes its `then` branch. -/
theorem applyEdit_changed {s : EditorState} {v : String}
    (h : normalizeCode v ≠ s.normalizedCode) :
    applyEdit s v =
      { code := v
        normalizedCode := normalizeCode v
        srcdoc := getIframeContent v
        assignCount := s.assignCount + 1 } := by
  simp [applyEdit, updatePreview, h]

/-- Invariant of the proxy-variant preview: the document assigned to the
iframe is always the rendering of a source whose normalized form is the
stored change-detection key. -/
theorem editorReachable_srcdoc {s : EditorState} (h : EditorReachable s) :
    ∃ w : String, s.srcdoc = getIframeContent w ∧
      normalizeCode w = s.normalizedCode := by
  induction h with
  | init => exact ⟨INITIAL_CODE, rfl, rfl⟩
  | edit h v ih =>
    obtain ⟨w, hw1, hw2⟩ := ih
    simp only [applyEdit, updatePreview]
    split
    · exact ⟨v, rfl, rfl⟩
    · exact ⟨w, hw1, hw2⟩

/-- The iframe document determines the spliced user code: the surrounding
template is fixed, so `getIframeContent` is injective. -/
theorem getIframeContent_inj {a b : String}
    (h : getIframeContent a = getIframeContent b) : a = b := by
  have h2 : (iframeHeader ++ a ++ iframeFooter).data =
      (iframeHeader ++ b ++ iframeFooter).data := by
    rw [show iframeHeader ++ a ++ iframeFooter = getIframeContent a from rfl,
      show iframeHeader ++ b ++ iframeFooter = getIframeContent b from rfl, h]
  simp only [String.data_append, List.append_assoc] at h2
  have h3 := List.append_cancel_left h2
  have h4 := List.append_cancel_right h3
  cases a
  cases b
  exact congrArg String.mk h4

set_option maxRecDepth 8192 in
/-- C10: the line-comment regex strips from `//` to end of line even inside
string literals, so two sources differing only in real (non-comment,
non-whitespace) characters after a `//` inside a string literal normalize
identically, and the edit between them does not reassign the preview
iframe (only the stored source changes). -/
theorem normalize_conflates_string_literal_slashes :
    ("s = \x22ab//cd\x22" : String) ≠ "s = \x22ab//xy\x22" ∧
    normalizeCode "s = \x22ab//cd\x22" = normalizeCode "s = \x22ab//xy\x22" ∧
    applyEdit (applyEdit initEditor "s = \x22ab//cd\x22") "s = \x22ab//xy\x22" =
      { applyEdit initEditor "s = \x22ab//cd\x22" with code := "s = \x22ab//xy\x22" } := by
  refine ⟨by decide, by decide, ?_⟩
  have h1 : normalizeCode "s = \x22ab//cd\x22" ≠ normalizeCode INITIAL_CODE := by decide
  have e1 := applyEdit_changed (s := initEditor) (v := "s = \x22ab//cd\x22") h1
  rw [e1]
  exact applyEdit_noop (by decide)

/-- C1 amended: in the proxy variant, whose `updatePreview` compares
normalized forms, an edit whose normalized form equals the stored one does
not reassign the iframe (only the stored source changes), and in every
reachable state the iframe document is the rendering of a source whose
normalized form is the stored key — i.e. of the last source whose
normalized form differed.  (The direct-client variant violates this; see
the counterexample.) -/
theorem preview_noop_edit_suppressed :
    (∀ (s : EditorState) (v : String), normalizeCode v = s.normalizedCode →
      applyEdit s v = { s with code := v }) ∧
    (∀ s : EditorState, EditorReachable s →
      ∃ w : String, s.srcdoc = getIframeContent w ∧
        normalizeCode w = s.normalizedCode) :=
  ⟨fun _ _ h => applyEdit_noop h, fun _ h => editorReachable_srcdoc h⟩

set_option maxRecDepth 8192 in
theorem preview_noop_edit_suppressed_witness :
    normalizeCode (INITIAL_CODE ++ " // note") = initEditor.normalizedCode ∧
    applyEdit initEditor (INITIAL_CODE ++ " // note") =
      { initEditor with code := INITIAL_CODE ++ " // note" } ∧
    ∃ w : String, initEditor.srcdoc = getIframeContent w ∧
      normalizeCode w = initEditor.normalizedCode :=
  ⟨by decide,
   preview_noop_edit_suppressed.1 initEditor (INITIAL_CODE ++ " // note") (by decide),
   preview_noop_edit_suppressed.2 initEditor EditorReachable.init⟩

/-- C1 counterexample: the direct-client variant's `updatePreview`
reassigns the iframe document on every edit, including a comment-only edit
whose normalized form is unchanged. -/
theorem preview_noop_edit_counterexample :
    normalizeCode "a() // c" = normalizeCode "a()" ∧
    (applyEditDC (applyEditDC initDCEditor "a()") "a() // c").assignCount =
      (applyEditDC initDCEditor "a()").assignCount + 1 ∧
    (applyEditDC (applyEditDC initDCEditor "a()") "a() // c").srcdoc ≠
      (applyEditDC initDCEditor "a()").srcdoc := by
  refine ⟨by decide, rfl, ?_⟩
  intro h
  have h2 : getIframeContent "a() // c" = getIframeContent "a()" := h
  have h3 := getIframeContent_inj h2
  exact absurd h3 (by decide)

/-- C7: `normalizeCode` is a total pure function on strings: comment
removal, then whitespace-run collapsing, then trimming; the empty string
maps to itself, and the contract is exercised on concrete inputs covering
block comments, line comments, collapsing and trimming. -/
theorem normalize_total_contract :
    (∀ s : String, normalizeCode s =
      String.mk (jsTrim (collapseWs (removeComments s.data)))) ∧
    normalizeCode "" = "" ∧
    normalizeCode "a /* b\n c */ b" = "a b" ∧
    normalizeCode "  x\t// comment\n  y  " = "x y" :=
  ⟨fun _ => rfl, by decide, by decide, by decide⟩

theorem pairFree_singleton {p : Char → Char → Bool} (a : Char) :
    pairFree p [a] = true := rfl

theorem pairFree_cons₂ {p : Char → Char → Bool} (a b : Char) (t : List Char) :
    pairFree p (a :: b :: t) = (!p a b && pairFree p (b :: t)) := rfl

theorem pairFree_tail {p : Char → Char → Bool} {c : Char} {t : List Char}
    (h : pairFree p (c :: t) = true) : pairFree p t = true := by
  cases t with
  | nil => rfl
  | cons x xs =>
    rw [pairFree_cons₂, Bool.and_eq_true] at h
    exact h.2

theorem pairFree_append_right {p : Char → Char → Bool} :
    ∀ (u t : List Char), pairFree p (u ++ t) = true → pairFree p t = true
  | [], _, h => h
  | _ :: u, t, h => pairFree_append_right u t (pairFree_tail h)

theorem pairFree_append_left {p : Char → Char → Bool} :
    ∀ (u t : List Char), pairFree p (u ++ t) = true → pairFree p u = true
  | [], _, _ => rfl
  | [_], _, _ => rfl
  | a :: b :: u, t, h => by
    rw [List.cons_append, List.cons_append, pairFree_cons₂, Bool.and_eq_true] at h
    rw [pairFree_cons₂, Bool.and_eq_true]
    exact ⟨h.1, pairFree_append_left (b :: u) t h.2⟩

theorem pairFree_suffix {p : Char → Char → Bool} {t l : List Char}
    (hs : t <:+ l) (h : pairFree p l = true) : pairFree p t = true := by
  obtain ⟨u, rfl⟩ := hs
  exact pairFree_append_right u t h

theorem pairFree_within {p : Char → Char → Bool} {t l : List Char}
    (hs : t <:+: l) (h : pairFree p l = true) : pairFree p t = true := by
  obtain ⟨u, w, rfl⟩ := hs
  rw [List.append_assoc] at h
  exact pairFree_append_left t w (pairFree_append_right u (t ++ w) h)

theorem findClose_none_iff :
    ∀ l : List Char, findClose l = none ↔ pairFree closePair l = true
  | [] => ⟨fun _ => rfl, fun _ => rfl⟩
  | [a] => by
    constructor
    · intro _
      exact pairFree_singleton a
    · intro _
      simp [findClose]
  | a :: b :: rest => by
    by_cases ha : a = '*'
    · subst ha
      by_cases hb : b = '/'
      · subst hb
        constructor
        · intro h
          simp [findClose] at h
        · intro h
          rw [pairFree_cons₂, Bool.and_eq_true] at h
          have : closePair '*' '/' = true := by decide
          simp [this] at h
      · have e1 : findClose ('*' :: b :: rest) = findClose (b :: rest) := by
          simp [findClose, hb]
        rw [e1, pairFree_cons₂, Bool.and_eq_true,
          findClose_none_iff (b :: rest)]
        simp [closePair, hb]
    · have e1 : findClose (a :: b :: rest) = findClose (b :: rest) := by
        simp [findClose, ha]
      rw [e1, pairFree_cons₂, Bool.and_eq_true, findClose_none_iff (b :: rest)]
      simp [closePair, ha]

theorem findClose_suffix :
    ∀ (l : List Char) {r : List Char}, findClose l = some r → r <:+ l
  | [], r, h => by simp [findClose] at h
  | c :: rest, r, h => by
    simp only [findClose] at h
    split at h
    · cases rest with
      | nil => simp at h
      | cons d rest2 =>
        simp only at h
        split at h
        · injection h with h2
          subst h2
          exact (List.suffix_cons d rest2).trans (List.suffix_cons c (d :: rest2))
        · exact (findClose_suffix (d :: rest2) h).trans (List.suffix_cons c (d :: rest2))
    · next hne =>
      exact (findClose_suffix rest h).trans (List.suffix_cons c rest)

theorem dropLine_suffix : ∀ l : List Char, dropLine l <:+ l
  | [] => List.suffix_refl []
  | c :: rest => by
    rw [dropLine]
    split
    · exact List.suffix_refl _
    · exact (dropLine_suffix rest).trans (List.suffix_cons c rest)

theorem rcFuel_nil : ∀ f : Nat, rcFuel f [] = []
  | 0 => rfl
  | _ + 1 => rfl

theorem rcFuel_cons_ne {c : Char} (hc : ¬c = '/') (f : Nat) (rest : List Char) :
    rcFuel (f + 1) (c :: rest) = c :: rcFuel f rest := by
  simp [rcFuel, hc]

theorem rcFuel_slash_nil (f : Nat) : rcFuel (f + 1) ['/'] = ['/'] := by
  simp [rcFuel]

theorem rcFuel_slash_star_some {f : Nat} {rest2 rest3 : List Char}
    (h : findClose rest2 = some rest3) :
    rcFuel (f + 1) ('/' :: '*' :: rest2) = rcFuel f rest3 := by
  simp [rcFuel, h]

theorem rcFuel_slash_star_none {f : Nat} {rest2 : List Char}
    (h : findClose rest2 = none) :
    rcFuel (f + 1) ('/' :: '*' :: rest2) = '/' :: rcFuel f ('*' :: rest2) := by
  simp [rcFuel, h]

theorem rcFuel_slash_slash (f : Nat) (rest2 : List Char) :
    rcFuel (f + 1) ('/' :: '/' :: rest2) = rcFuel f (dropLine rest2) := by
  simp [rcFuel]

theorem rcFuel_slash_other {f : Nat} {d : Char} (h1 : ¬d = '*') (h2 : ¬d = '/')
    (rest2 : List Char) :
    rcFuel (f + 1) ('/' :: d :: rest2) = '/' :: rcFuel f (d :: rest2) := by
  simp [rcFuel, h1, h2]

theorem rcFuel_head_ne {f : Nat} {c : Char} {rest : List Char}
    (hc : ¬c = '/') (hf : 1 ≤ f) :
    ∃ t, rcFuel f (c :: rest) = c :: t := by
  obtain ⟨f2, rfl⟩ : ∃ f2, f = f2 + 1 := ⟨f - 1, by omega⟩
  exact ⟨rcFuel f2 rest, rcFuel_cons_ne hc f2 rest⟩

/-- The comment scanner never emits two adjacent slashes: any `//` in the
input starts a line-comment match, and a kept slash is never immediately
followed by the start of a match (both alternatives start with `/`). -/
theorem rcFuel_ssPair_free :
    ∀ (f : Nat) (l : List Char), l.length ≤ f →
      pairFree ssPair (rcFuel f l) = true
  | 0, l, h => by
    obtain rfl := List.length_eq_zero.mp (Nat.le_zero.mp h)
    rfl
  | _ + 1, [], _ => rfl
  | f + 1, c :: rest, h => by
    have hlen : rest.length ≤ f := by
      simp only [List.length_cons] at h
      omega
    by_cases hc : c = '/'
    · subst hc
      cases rest with
      | nil => rw [rcFuel_slash_nil]; exact pairFree_singleton '/'
      | cons d rest2 =>
        have hlen2 : (d :: rest2).length ≤ f := hlen
        have hf1 : 1 ≤ f := le_trans (by simp) hlen2
        by_cases hd : d = '*'
        · subst hd
          cases hfc : findClose rest2 with
          | some rest3 =>
            rw [rcFuel_slash_star_some hfc]
            have h3 : rest3.length ≤ f := by
              have := (findClose_suffix rest2 hfc).length_le
              simp only [List.length_cons] at hlen2
              omega
            exact rcFuel_ssPair_free f rest3 h3
          | none =>
            rw [rcFuel_slash_star_none hfc]
            obtain ⟨t, ht⟩ := rcFuel_head_ne (c := '*') (by decide) hf1
            rw [ht, pairFree_cons₂, Bool.and_eq_true]
            refine ⟨by decide, ?_⟩
            rw [← ht]
            exact rcFuel_ssPair_free f ('*' :: rest2) hlen2
        · by_cases hd2 : d = '/'
          · subst hd2
            rw [rcFuel_slash_slash]
            have h3 : (dropLine rest2).length ≤ f := by
              have := (dropLine_suffix rest2).length_le
              simp only [List.length_cons] at hlen2
              omega
            exact rcFuel_ssPair_free f (dropLine rest2) h3
          · rw [rcFuel_slash_other hd hd2 rest2]
            obtain ⟨t, ht⟩ := rcFuel_head_ne hd2 hf1
            rw [ht, pairFree_cons₂, Bool.and_eq_true]
            refine ⟨by simp [ssPair, hd2], ?_⟩
            rw [← ht]
            exact rcFuel_ssPair_free f (d :: rest2) hlen2
    · rw [rcFuel_cons_ne hc f rest]
      have ih := rcFuel_ssPair_free f rest hlen
      cases hr : rcFuel f rest with
      | nil => exact pairFree_singleton c
      | cons x xs =>
        rw [hr] at ih
        rw [pairFree_cons₂, Bool.and_eq_true]
        exact ⟨by simp [ssPair, hc], ih⟩

/-- The comment scanner cannot create a `*/` pair that was not in its
input: each kept character keeps its original successor unless that
successor starts a match, and matches start with `/` while being preceded
by a non-`*` kept character in the relevant cases. -/
theorem rcFuel_closePair_free :
    ∀ (f : Nat) (l : List Char), l.length ≤ f →
      pairFree closePair l = true →
      pairFree closePair (rcFuel f l) = true
  | 0, l, h, _ => by
    obtain rfl := List.length_eq_zero.mp (Nat.le_zero.mp h)
    rfl
  | _ + 1, [], _, _ => rfl
  | f + 1, c :: rest, h, hp => by
    have hlen : rest.length ≤ f := by
      simp only [List.length_cons] at h
      omega
    by_cases hc : c = '/'
    · subst hc
      cases rest with
      | nil => rw [rcFuel_slash_nil]; exact pairFree_singleton '/'
      | cons d rest2 =>
        have hlen2 : (d :: rest2).length ≤ f := hlen
        have hf1 : 1 ≤ f := le_trans (by simp) hlen2
        by_cases hd : d = '*'
        · subst hd
          cases hfc : findClose rest2 with
          | some rest3 =>
            have hcp : pairFree closePair rest2 = true :=
              pairFree_tail (pairFree_tail hp)
            rw [← findClose_none_iff rest2] at hcp
            rw [hcp] at hfc
            cases hfc
          | none =>
            rw [rcFuel_slash_star_none hfc]
            have ih := rcFuel_closePair_free f ('*' :: rest2) hlen2
              (pairFree_tail hp)
            cases hr : rcFuel f ('*' :: rest2) with
            | nil => exact pairFree_singleton '/'
            | cons x xs =>
              rw [hr] at ih
              rw [pairFree_cons₂, Bool.and_eq_true]
              exact ⟨by simp [closePair], ih⟩
        · by_cases hd2 : d = '/'
          · subst hd2
            rw [rcFuel_slash_slash]
            have h3 : (dropLine rest2).length ≤ f := by
              have := (dropLine_suffix rest2).length_le
              simp only [List.length_cons] at hlen2
              omega
            exact rcFuel_closePair_free f (dropLine rest2) h3
              (pairFree_suffix (dropLine_suffix rest2)
                (pairFree_tail (pairFree_tail hp)))
          · rw [rcFuel_slash_other hd hd2 rest2]
            have ih := rcFuel_closePair_free f (d :: rest2) hlen2
              (pairFree_tail hp)
            cases hr : rcFuel f (d :: rest2) with
            | nil => exact pairFree_singleton '/'
            | cons x xs =>
              rw [hr] at ih
              rw [pairFree_cons₂, Bool.and_eq_true]
              exact ⟨by simp [closePair], ih⟩
    · rw [rcFuel_cons_ne hc f rest]
      have ih := rcFuel_closePair_free f rest hlen (pairFree_tail hp)
      by_cases hcs : c = '*'
      · subst hcs
        cases rest with
        | nil =>
          rw [rcFuel_nil]
          exact pairFree_singleton '*'
        | cons e r3 =>
          have hf1 : 1 ≤ f := le_trans (by simp) hlen
          by_cases he : e = '/'
          · subst he
            rw [pairFree_cons₂, Bool.and_eq_true] at hp
            have : closePair '*' '/' = true := by decide
            simp [this] at hp
          · obtain ⟨t, ht⟩ := rcFuel_head_ne he hf1
            rw [ht] at ih ⊢
            rw [pairFree_cons₂, Bool.and_eq_true]
            exact ⟨by simp [closePair, he], ih⟩
      · cases hr : rcFuel f rest with
        | nil => exact pairFree_singleton c
        | cons x xs =>
          rw [hr] at ih
          rw [pairFree_cons₂, Bool.and_eq_true]
          exact ⟨by simp [closePair, hcs], ih⟩

theorem blockFreeP_nil : BlockFreeP [] := by
  intro u v h
  have := congrArg List.length h
  simp at this
  omega

theorem blockFreeP_singleton (c : Char) : BlockFreeP [c] := by
  intro u v h
  have := congrArg List.length h
  simp at this
  omega

theorem blockFreeP_tail {c : Char} {t : List Char} (h : BlockFreeP (c :: t)) :
    BlockFreeP t := fun u v huv => h (c :: u) v (by rw [huv]; rfl)

theorem blockFreeP_cons {c : Char} {t : List Char} (hc : ¬c = '/')
    (h : BlockFreeP t) : BlockFreeP (c :: t) := by
  intro u v huv
  cases u with
  | nil =>
    injection huv with h1 _
    exact absurd h1 hc
  | cons x u2 =>
    injection huv with _ h2
    exact h u2 v h2

theorem blockFreeP_cons_slash {t : List Char} (hh : t.head? ≠ some '*')
    (h : BlockFreeP t) : BlockFreeP ('/' :: t) := by
  intro u v huv
  cases u with
  | nil =>
    injection huv with _ h2
    rw [h2] at hh
    simp at hh
  | cons x u2 =>
    injection huv with _ h2
    exact h u2 v h2

theorem blockFreeP_of_closePair_free {l : List Char}
    (h : pairFree closePair l = true) : BlockFreeP l := by
  intro u v huv
  subst huv
  exact pairFree_tail (pairFree_tail (pairFree_append_right u _ h))

theorem blockFreeP_slash_star {Y : List Char}
    (h1 : pairFree closePair Y = true) (h2 : BlockFreeP ('*' :: Y)) :
    BlockFreeP ('/' :: '*' :: Y) := by
  intro u v huv
  cases u with
  | nil =>
    injection huv with _ hb
    injection hb with _ hb2
    rw [← hb2]
    exact h1
  | cons x u2 =>
    injection huv with _ hb
    exact h2 u2 v hb

/-- The comment scanner's output contains no complete block-comment text:
a kept `/*` means no closer existed in the remaining input, and the scanner
cannot create a closer out of kept characters. -/
theorem rcFuel_blockFree :
    ∀ (f : Nat) (l : List Char), l.length ≤ f → BlockFreeP (rcFuel f l)
  | 0, l, h => by
    obtain rfl := List.length_eq_zero.mp (Nat.le_zero.mp h)
    exact blockFreeP_nil
  | _ + 1, [], _ => blockFreeP_nil
  | f + 1, c :: rest, h => by
    have hlen : rest.length ≤ f := by
      simp only [List.length_cons] at h
      omega
    by_cases hc : c = '/'
    · subst hc
      cases rest with
      | nil => rw [rcFuel_slash_nil]; exact blockFreeP_singleton '/'
      | cons d rest2 =>
        have hlen2 : (d :: rest2).length ≤ f := hlen
        have hf1 : 1 ≤ f := le_trans (by simp) hlen2
        obtain ⟨f2, rfl⟩ : ∃ f2, f = f2 + 1 := ⟨f - 1, by omega⟩
        have hlen3 : rest2.length ≤ f2 := by
          simp only [List.length_cons] at hlen2
          omega
        by_cases hd : d = '*'
        · subst hd
          cases hfc : findClose rest2 with
          | some rest3 =>
            rw [rcFuel_slash_star_some hfc]
            have h3 : rest3.length ≤ f2 + 1 := by
              have := (findClose_suffix rest2 hfc).length_le
              omega
            exact rcFuel_blockFree (f2 + 1) rest3 h3
          | none =>
            rw [rcFuel_slash_star_none hfc,
              rcFuel_cons_ne (c := '*') (by decide) f2 rest2]
            apply blockFreeP_slash_star
            · exact rcFuel_closePair_free f2 rest2 hlen3
                ((findClose_none_iff rest2).mp hfc)
            · rw [← rcFuel_cons_ne (c := '*') (by decide) f2 rest2]
              exact rcFuel_blockFree (f2 + 1) ('*' :: rest2) hlen2
        · by_cases hd2 : d = '/'
          · subst hd2
            rw [rcFuel_slash_slash]
            have h3 : (dropLine rest2).length ≤ f2 + 1 := by
              have := (dropLine_suffix rest2).length_le
              omega
            exact rcFuel_blockFree (f2 + 1) (dropLine rest2) h3
          · rw [rcFuel_slash_other hd hd2 rest2,
              rcFuel_cons_ne hd2 f2 rest2]
            apply blockFreeP_cons_slash
            · simp [hd]
            · rw [← rcFuel_cons_ne hd2 f2 rest2]
              exact rcFuel_blockFree (f2 + 1) (d :: rest2) hlen2
    · rw [rcFuel_cons_ne hc f rest]
      exact blockFreeP_cons hc (rcFuel_blockFree f rest hlen)

theorem collapseWs_nil : collapseWs [] = [] := rfl

theorem collapseWs_cons_nonws {c : Char} (hc : isJsWs c = false)
    (rest : List Char) : collapseWs (c :: rest) = c :: collapseWs rest := by
  rw [collapseWs.eq_def]
  simp [hc]

theorem collapseWs_ws_nil {c : Char} (hc : isJsWs c = true) :
    collapseWs [c] = [' '] := by
  rw [collapseWs.eq_def]
  simp [hc]

theorem collapseWs_ws_ws {c d : Char} (hc : isJsWs c = true)
    (hd : isJsWs d = true) (rest2 : List Char) :
    collapseWs (c :: d :: rest2) = collapseWs (d :: rest2) := by
  rw [collapseWs.eq_def]
  simp [hc, hd]

theorem collapseWs_ws_nonws {c d : Char} (hc : isJsWs c = true)
    (hd : isJsWs d = false) (rest2 : List Char) :
    collapseWs (c :: d :: rest2) = ' ' :: d :: collapseWs rest2 := by
  rw [collapseWs.eq_def]
  simp [hc, hd]

theorem collapseWs_head :
    ∀ (c : Char) (rest : List Char),
      (collapseWs (c :: rest)).head? = some (if isJsWs c then ' ' else c) := by
  intro c rest
  induction rest generalizing c with
  | nil =>
    by_cases hc : isJsWs c = true
    · rw [collapseWs_ws_nil hc]
      simp [hc]
    · rw [collapseWs_cons_nonws (by simpa using hc)]
      simp [hc]
  | cons d rest2 ih =>
    by_cases hc : isJsWs c = true
    · by_cases hd : isJsWs d = true
      · rw [collapseWs_ws_ws hc hd, ih d]
        simp [hc, hd]
      · rw [collapseWs_ws_nonws hc (by simpa using hd)]
        simp [hc]
    · rw [collapseWs_cons_nonws (by simpa using hc)]
      simp [hc]

/-- Every whitespace character in the collapsed output is a plain space. -/
theorem collapseWs_allSpace :
    ∀ l : List Char, ∀ c ∈ collapseWs l, isJsWs c = true → c = ' '
  | [] => by simp [collapseWs_nil]
  | a :: rest => by
    by_cases ha : isJsWs a = true
    · cases rest with
      | nil =>
        rw [collapseWs_ws_nil ha]
        simp
      | cons d rest2 =>
        by_cases hd : isJsWs d = true
        · rw [collapseWs_ws_ws ha hd]
          exact collapseWs_allSpace (d :: rest2)
        · have hd2 : isJsWs d = false := by simpa using hd
          rw [collapseWs_ws_nonws ha hd2]
          intro c hc hws
          rcases List.mem_cons.mp hc with rfl | hc2
          · rfl
          rcases List.mem_cons.mp hc2 with rfl | hc3
          · rw [hws] at hd2
            cases hd2
          · exact collapseWs_allSpace rest2 c hc3 hws
    · have ha2 : isJsWs a = false := by simpa using ha
      rw [collapseWs_cons_nonws ha2]
      intro c hc hws
      rcases List.mem_cons.mp hc with rfl | hc2
      · rw [hws] at ha2
        cases ha2
      · exact collapseWs_allSpace rest c hc2 hws

/-- The collapsed output never contains two adjacent whitespace
characters. -/
theorem collapseWs_wsPair_free :
    ∀ l : List Char, pairFree wsPair (collapseWs l) = true
  | [] => rfl
  | a :: rest => by
    by_cases ha : isJsWs a = true
    · cases rest with
      | nil =>
        rw [collapseWs_ws_nil ha]
        exact pairFree_singleton ' '
      | cons d rest2 =>
        by_cases hd : isJsWs d = true
        · rw [collapseWs_ws_ws ha hd]
          exact collapseWs_wsPair_free (d :: rest2)
        · have hd2 : isJsWs d = false := by simpa using hd
          rw [collapseWs_ws_nonws ha hd2]
          rw [pairFree_cons₂, Bool.and_eq_true]
          refine ⟨by simp [wsPair, hd2], ?_⟩
          cases hr : collapseWs rest2 with
          | nil => exact pairFree_singleton d
          | cons x xs =>
            rw [pairFree_cons₂, Bool.and_eq_true]
            refine ⟨by simp [wsPair, hd2], ?_⟩
            rw [← hr]
            exact collapseWs_wsPair_free rest2
    · have ha2 : isJsWs a = false := by simpa using ha
      rw [collapseWs_cons_nonws ha2]
      cases hr : collapseWs rest with
      | nil => exact pairFree_singleton a
      | cons x xs =>
        rw [pairFree_cons₂, Bool.and_eq_true]
        refine ⟨by simp [wsPair, ha2], ?_⟩
        rw [← hr]
        exact collapseWs_wsPair_free rest

/-- Collapsing whitespace never creates a new adjacent pair of
non-whitespace characters, so any pair predicate that only fires on
non-whitespace characters is preserved. -/
theorem pairFree_collapseWs {p : Char → Char → Bool}
    (hp : ∀ a b, p a b = true → isJsWs a = false ∧ isJsWs b = false) :
    ∀ l : List Char, pairFree p l = true → pairFree p (collapseWs l) = true := by
  have hpl : ∀ a b, isJsWs a = true → p a b = false := fun a b ha => by
    cases hab : p a b with
    | false => rfl
    | true => rw [(hp a b hab).1] at ha; cases ha
  have hpr : ∀ a b, isJsWs b = true → p a b = false := fun a b hb => by
    cases hab : p a b with
    | false => rfl
    | true => rw [(hp a b hab).2] at hb; cases hb
  intro l
  induction l using collapseWs.induct with
  | case1 => intro _; rfl
  | case2 c hc =>
    intro _
    rw [collapseWs_ws_nil (by simpa using hc)]
    exact pairFree_singleton ' '
  | case3 c hc d rest2 hd ih =>
    intro h
    rw [collapseWs_ws_ws (by simpa using hc) (by simpa using hd)]
    exact ih (pairFree_tail h)
  | case4 c hc d rest2 hd ih =>
    intro h
    have hc2 : isJsWs c = true := by simpa using hc
    have hd2 : isJsWs d = false := by simpa using hd
    rw [collapseWs_ws_nonws hc2 hd2]
    rw [pairFree_cons₂, Bool.and_eq_true]
    refine ⟨by simp [hpl ' ' d (by decide)], ?_⟩
    have hrec := ih (pairFree_tail (pairFree_tail h))
    cases rest2 with
    | nil => exact pairFree_singleton d
    | cons e r3 =>
      have hh := collapseWs_head e r3
      cases hr : collapseWs (e :: r3) with
      | nil => exact pairFree_singleton d
      | cons x xs =>
        rw [hr] at hh hrec
        simp at hh
        rw [pairFree_cons₂, Bool.and_eq_true]
        refine ⟨?_, hrec⟩
        by_cases hews : isJsWs e = true
        · rw [if_pos hews] at hh
          rw [hh]
          simp [hpr d ' ' (by decide)]
        · rw [if_neg hews] at hh
          rw [hh]
          have h2 := pairFree_tail h
          rw [pairFree_cons₂, Bool.and_eq_true] at h2
          simpa using h2.1
  | case5 c rest hc ih =>
    intro h
    have hc2 : isJsWs c = false := by simpa using hc
    rw [collapseWs_cons_nonws hc2]
    have hrec := ih (pairFree_tail h)
    cases rest with
    | nil => exact pairFree_singleton c
    | cons e r3 =>
      have hh := collapseWs_head e r3
      cases hr : collapseWs (e :: r3) with
      | nil => exact pairFree_singleton c
      | cons x xs =>
        rw [hr] at hh hrec
        simp at hh
        rw [pairFree_cons₂, Bool.and_eq_true]
        refine ⟨?_, hrec⟩
        by_cases hews : isJsWs e = true
        · rw [if_pos hews] at hh
          rw [hh]
          simp [hpr c ' ' (by decide)]
        · rw [if_neg hews] at hh
          rw [hh]
          rw [pairFree_cons₂, Bool.and_eq_true] at h
          simpa using h.1

/-- If the collapsed output starts with a non-whitespace character, the
input starts with that same character and the tails correspond. -/
theorem collapseWs_eq_cons {m : List Char} {d : Char} {v : List Char}
    (hd : isJsWs d = false) (h : collapseWs m = d :: v) :
    ∃ v0, m = d :: v0 ∧ v = collapseWs v0 := by
  cases m with
  | nil => rw [collapseWs_nil] at h; cases h
  | cons a rest =>
    have hh := collapseWs_head a rest
    rw [h] at hh
    simp at hh
    by_cases ha : isJsWs a = true
    · rw [if_pos ha] at hh
      rw [hh] at hd
      simp [isJsWs] at hd
    · have ha2 : isJsWs a = false := by simpa using ha
      rw [if_neg ha] at hh
      rw [collapseWs_cons_nonws ha2] at h
      injection h with h1 h2
      exact ⟨rest, by rw [h1], h2.symm⟩

/-- An adjacent pair of non-whitespace characters in the collapsed output
comes from the same adjacent pair in the input, with corresponding
tails. -/
theorem collapseWs_pair_decomp {c d : Char}
    (hc : isJsWs c = false) (hd : isJsWs d = false) :
    ∀ (l u v : List Char), collapseWs l = u ++ c :: d :: v →
      ∃ v0, (c :: d :: v0) <:+ l ∧ v = collapseWs v0 := by
  intro l
  induction l using collapseWs.induct with
  | case1 =>
    intro u v h
    rw [collapseWs_nil] at h
    have := congrArg List.length h
    simp at this
    omega
  | case2 a ha =>
    intro u v h
    rw [collapseWs_ws_nil (by simpa using ha)] at h
    have := congrArg List.length h
    simp at this
    omega
  | case3 a ha e rest2 he ih =>
    intro u v h
    rw [collapseWs_ws_ws (by simpa using ha) (by simpa using he)] at h
    obtain ⟨v0, hsuf, hv⟩ := ih u v h
    exact ⟨v0, hsuf.trans (List.suffix_cons a (e :: rest2)), hv⟩
  | case4 a ha e rest2 he ih =>
    intro u v h
    have ha2 : isJsWs a = true := by simpa using ha
    have he2 : isJsWs e = false := by simpa using he
    rw [collapseWs_ws_nonws ha2 he2] at h
    cases u with
    | nil =>
      injection h with h1 _
      rw [← h1] at hc
      simp [isJsWs] at hc
    | cons x u2 =>
      injection h with _ h2
      cases u2 with
      | nil =>
        injection h2 with h3 h4
        obtain ⟨v0, hm, hv⟩ := collapseWs_eq_cons hd h4
        refine ⟨v0, ?_, hv⟩
        rw [hm, ← h3]
        exact List.suffix_cons a (e :: d :: v0)
      | cons y u3 =>
        injection h2 with _ h4
        obtain ⟨v0, hsuf, hv⟩ := ih u3 v h4
        exact ⟨v0, (hsuf.trans (List.suffix_cons e rest2)).trans
          (List.suffix_cons a (e :: rest2)), hv⟩
  | case5 a rest ha ih =>
    intro u v h
    have ha2 : isJsWs a = false := by simpa using ha
    rw [collapseWs_cons_nonws ha2] at h
    cases u with
    | nil =>
      injection h with h1 h2
      obtain ⟨v0, hm, hv⟩ := collapseWs_eq_cons hd h2
      refine ⟨v0, ?_, hv⟩
      rw [← h1, hm]
    | cons x u2 =>
      injection h with _ h2
      obtain ⟨v0, hsuf, hv⟩ := ih u2 v h2
      exact ⟨v0, hsuf.trans (List.suffix_cons a rest), hv⟩

theorem blockFreeP_within {t l : List Char} (hi : t <:+: l)
    (h : BlockFreeP l) : BlockFreeP t := by
  intro u v huv
  obtain ⟨a, b, hab⟩ := hi
  have hl : l = (a ++ u) ++ '/' :: '*' :: (v ++ b) := by
    rw [← hab, huv]
    simp
  exact pairFree_append_left v b (h (a ++ u) (v ++ b) hl)

theorem closePair_nonws :
    ∀ a b : Char, closePair a b = true → isJsWs a = false ∧ isJsWs b = false := by
  intro a b hab
  rw [closePair, Bool.and_eq_true, decide_eq_true_eq, decide_eq_true_eq] at hab
  obtain ⟨rfl, rfl⟩ := hab
  exact ⟨by decide, by decide⟩

theorem ssPair_nonws :
    ∀ a b : Char, ssPair a b = true → isJsWs a = false ∧ isJsWs b = false := by
  intro a b hab
  rw [ssPair, Bool.and_eq_true, decide_eq_true_eq, decide_eq_true_eq] at hab
  obtain ⟨rfl, rfl⟩ := hab
  exact ⟨by decide, by decide⟩

theorem blockFreeP_collapseWs {l : List Char} (h : BlockFreeP l) :
    BlockFreeP (collapseWs l) := by
  intro u v huv
  obtain ⟨v0, hsuf, hv⟩ :=
    collapseWs_pair_decomp (by decide) (by decide) l u v huv
  obtain ⟨w, hw⟩ := hsuf
  rw [hv]
  exact pairFree_collapseWs closePair_nonws v0 (h w v0 hw.symm)

theorem jsTrim_prefix_dropWhile (l : List Char) :
    jsTrim l <+: l.dropWhile isJsWs := by
  rw [jsTrim]
  have h := List.reverse_prefix.mpr
    (List.dropWhile_suffix (l := (l.dropWhile isJsWs).reverse) isJsWs)
  rwa [List.reverse_reverse] at h

theorem jsTrim_within (l : List Char) : jsTrim l <:+: l :=
  List.IsInfix.trans (List.IsPrefix.isInfix (jsTrim_prefix_dropWhile l))
    (List.IsSuffix.isInfix (List.dropWhile_suffix isJsWs))

theorem head_dropWhile_not (p : Char → Bool) :
    ∀ l : List Char, ∀ c ∈ (l.dropWhile p).head?, p c = false
  | [] => by simp
  | a :: rest => by
    by_cases ha : p a = true
    · rw [List.dropWhile_cons_of_pos ha]
      exact head_dropWhile_not p rest
    · rw [List.dropWhile_cons_of_neg ha]
      intro c hc
      simp at hc
      rw [← hc]
      simpa using ha

theorem jsTrim_getLast (l : List Char) :
    ∀ c ∈ (jsTrim l).getLast?, isJsWs c = false := by
  intro c hc
  rw [jsTrim, List.getLast?_reverse] at hc
  exact head_dropWhile_not isJsWs _ c hc

theorem jsTrim_head (l : List Char) :
    ∀ c ∈ (jsTrim l).head?, isJsWs c = false := by
  intro c hc
  rw [jsTrim, List.head?_reverse] at hc
  cases hf : (l.dropWhile isJsWs).reverse.dropWhile isJsWs with
  | nil => rw [hf] at hc; simp at hc
  | cons x xs =>
    rw [hf] at hc
    have hsuf : (x :: xs) <:+ (l.dropWhile isJsWs).reverse := by
      rw [← hf]
      exact List.dropWhile_suffix isJsWs
    obtain ⟨w, hw⟩ := hsuf
    have hlast : (x :: xs).getLast? = ((l.dropWhile isJsWs).reverse).getLast? := by
      rw [← hw, List.getLast?_append_of_ne_nil w (by simp)]
    rw [hlast, List.getLast?_reverse] at hc
    exact head_dropWhile_not isJsWs l c hc

/-- On input with no `//` pair and no complete block comment, the comment
scanner is the identity. -/
theorem rcFuel_id :
    ∀ (f : Nat) (l : List Char), l.length ≤ f → pairFree ssPair l = true →
      BlockFreeP l → rcFuel f l = l
  | 0, l, h, _, _ => by
    obtain rfl := List.length_eq_zero.mp (Nat.le_zero.mp h)
    rfl
  | _ + 1, [], _, _, _ => rfl
  | f + 1, c :: rest, h, hss, hbf => by
    have hlen : rest.length ≤ f := by
      simp only [List.length_cons] at h
      omega
    by_cases hc : c = '/'
    · subst hc
      cases rest with
      | nil => rw [rcFuel_slash_nil]
      | cons d rest2 =>
        have hlen2 : (d :: rest2).length ≤ f := hlen
        by_cases hd : d = '*'
        · subst hd
          have hcp : pairFree closePair rest2 = true := hbf [] rest2 rfl
          have hfc : findClose rest2 = none := (findClose_none_iff rest2).mpr hcp
          rw [rcFuel_slash_star_none hfc]
          rw [rcFuel_id f ('*' :: rest2) hlen2 (pairFree_tail hss)
            (blockFreeP_tail hbf)]
        · by_cases hd2 : d = '/'
          · subst hd2
            rw [pairFree_cons₂, Bool.and_eq_true] at hss
            have : ssPair '/' '/' = true := by decide
            simp [this] at hss
          · rw [rcFuel_slash_other hd hd2 rest2]
            rw [rcFuel_id f (d :: rest2) hlen2 (pairFree_tail hss)
              (blockFreeP_tail hbf)]
    · rw [rcFuel_cons_ne hc f rest]
      rw [rcFuel_id f rest hlen (pairFree_tail hss) (blockFreeP_tail hbf)]

/-- On input whose whitespace is single spaces with non-whitespace
neighbours, whitespace collapsing is the identity. -/
theorem collapseWs_id :
    ∀ l : List Char, (∀ c ∈ l, isJsWs c = true → c = ' ') →
      pairFree wsPair l = true → collapseWs l = l
  | [], _, _ => rfl
  | a :: rest, hall, hpf => by
    by_cases ha : isJsWs a = true
    · have ha2 : a = ' ' := hall a (by simp) ha
      cases rest with
      | nil => rw [collapseWs_ws_nil ha, ha2]
      | cons d rest2 =>
        have hd : isJsWs d = false := by
          rw [pairFree_cons₂, Bool.and_eq_true] at hpf
          have h1 := hpf.1
          rw [wsPair, ha] at h1
          simpa using h1
        rw [collapseWs_ws_nonws ha hd, ha2]
        rw [collapseWs_id rest2
          (fun c hc hws => hall c (by simp [hc]) hws)
          (pairFree_tail (pairFree_tail hpf))]
    · have ha2 : isJsWs a = false := by simpa using ha
      rw [collapseWs_cons_nonws ha2]
      rw [collapseWs_id rest
        (fun c hc hws => hall c (by simp [hc]) hws)
        (pairFree_tail hpf)]

/-- Trimming a list whose first and last characters are non-whitespace is
the identity. -/
theorem jsTrim_id {l : List Char}
    (h1 : ∀ c ∈ l.head?, isJsWs c = false)
    (h2 : ∀ c ∈ l.getLast?, isJsWs c = false) : jsTrim l = l := by
  cases l with
  | nil => rfl
  | cons a rest =>
    have ha : isJsWs a = false := h1 a (by simp)
    have hdw1 : List.dropWhile isJsWs (a :: rest) = a :: rest :=
      List.dropWhile_cons_of_neg (by simp [ha])
    rw [jsTrim, hdw1]
    cases hrev : (a :: rest).reverse with
    | nil => simp at hrev
    | cons b tb =>
      have hb : isJsWs b = false := by
        apply h2 b
        rw [← List.head?_reverse, hrev]
        simp
      have hdw2 : List.dropWhile isJsWs (b :: tb) = b :: tb :=
        List.dropWhile_cons_of_neg (by simp [hb])
      rw [hdw2, ← hrev, List.reverse_reverse]

/-- C8: for every input, the output of `normalizeCode` contains no `//`
line-comment text, no complete `/* */` block-comment text, and no two
consecutive whitespace characters; and `normalizeCode` is idempotent. -/
theorem normalize_clean_idempotent :
    ∀ s : String,
      pairFree ssPair (normalizeCode s).data = true ∧
      BlockFreeP (normalizeCode s).data ∧
      pairFree wsPair (normalizeCode s).data = true ∧
      normalizeCode (normalizeCode s) = normalizeCode s := by
  intro s
  have hdata : (normalizeCode s).data =
      jsTrim (collapseWs (removeComments s.data)) := rfl
  have hWithin : jsTrim (collapseWs (removeComments s.data)) <:+:
      collapseWs (removeComments s.data) := jsTrim_within _
  have hR_ss : pairFree ssPair (removeComments s.data) = true :=
    rcFuel_ssPair_free s.data.length s.data le_rfl
  have hR_bf : BlockFreeP (removeComments s.data) :=
    rcFuel_blockFree s.data.length s.data le_rfl
  have hC_ss : pairFree ssPair (collapseWs (removeComments s.data)) = true :=
    pairFree_collapseWs ssPair_nonws _ hR_ss
  have hC_bf : BlockFreeP (collapseWs (removeComments s.data)) :=
    blockFreeP_collapseWs hR_bf
  have hM_ss : pairFree ssPair (normalizeCode s).data = true := by
    rw [hdata]
    exact pairFree_within hWithin hC_ss
  have hM_bf : BlockFreeP (normalizeCode s).data := by
    rw [hdata]
    exact blockFreeP_within hWithin hC_bf
  have hM_ws : pairFree wsPair (normalizeCode s).data = true := by
    rw [hdata]
    exact pairFree_within hWithin (collapseWs_wsPair_free _)
  have hM_all : ∀ c ∈ (normalizeCode s).data, isJsWs c = true → c = ' ' := by
    rw [hdata]
    intro c hc
    exact collapseWs_allSpace _ c (List.IsInfix.subset hWithin hc)
  refine ⟨hM_ss, hM_bf, hM_ws, ?_⟩
  have e1 : removeComments (normalizeCode s).data = (normalizeCode s).data :=
    rcFuel_id _ _ le_rfl hM_ss hM_bf
  have e2 : collapseWs (normalizeCode s).data = (normalizeCode s).data :=
    collapseWs_id _ hM_all hM_ws
  have e3 : jsTrim (normalizeCode s).data = (normalizeCode s).data := by
    rw [hdata]
    exact jsTrim_id (jsTrim_head _) (jsTrim_getLast _)
  show String.mk (jsTrim (collapseWs (removeComments (normalizeCode s).data))) =
    normalizeCode s
  rw [e1, e2, e3]
